import Mathlib

/-!
Shallow embedding of the Vector Fitting core (`src/src/core/VectorFitting.cpp`,
the maintained version of the file, i.e. the part declaring `VectorFitting::init`,
the two constructors, `fit`, `getFittedSamples`, `getRMSE`, `getMaxDeviation` and
`getCIndex`), together with theorems settling the frozen claims about it.

Modelling conventions:
* `Real` (C++ `double`) is embedded as `ℚ`; `Complex` as a pair of rationals (`Cq`).
* Eigen's dense linear-algebra calls that have no exact rational meaning
  (Householder QR, least-squares solves, eigenvalue extraction, square roots)
  are abstracted into an `Oracles` structure: the embedding is parameterised by
  arbitrary functions standing for those factorizations, and every theorem that
  does not pin them down holds for all oracles.  Where a claim needs a concrete
  run, explicit dummy oracles are supplied.
* Out-of-bounds accesses on `std::vector` / Eigen objects (assertion failure /
  undefined behaviour in C++) are modelled as an explicit error value:
  fallible code returns `Except Err`.
* The helper header `VectorFitting.h` and `SpaceGenerator.h` are not part of
  `src/`; the few helpers they provide (`equal`, `lower`, `greater`, the
  tolerance constants and `linspace`) are modelled from the spec and marked as
  such in their doc comments.
-/

namespace VFit

/-- Error outcomes of the embedded code: each constructor corresponds to one
`throw std::runtime_error(...)`, failed `assert`, or out-of-bounds vector /
matrix access in the source. -/
inductive Err where
  | emptySamples      -- "Samples size cannot be zero"
  | invalidOrder      -- "Default starting poles are complex, order must be even"
  | indexOutOfBounds  -- out-of-bounds std::vector / Eigen access (assert / UB)
  | unpairedPole      -- failed assert(conj(currentPole) == poles[i+1]) in init
  | weightsSize       -- "Weights and samples must have same size."
  | weightsRowSize    -- "All weights must have the same size as the samples"
  | notImplemented    -- "Option to do not relax is not implemented"
  | notReal           -- "LAMBD is not purely real"
  | eigSize           -- eigensolver did not return exactly N eigenvalues
  deriving DecidableEq, Repr

/-- Complex number over `ℚ`, the embedding of `VectorFitting::Complex`. -/
structure Cq where
  re : ℚ
  im : ℚ
  deriving DecidableEq, Repr

namespace Cq

def add (x y : Cq) : Cq := ⟨x.re + y.re, x.im + y.im⟩
def sub (x y : Cq) : Cq := ⟨x.re - y.re, x.im - y.im⟩
def mul (x y : Cq) : Cq := ⟨x.re * y.re - x.im * y.im, x.re * y.im + x.im * y.re⟩
def neg (x : Cq) : Cq := ⟨-x.re, -x.im⟩

/-- Squared modulus `re² + im²`; rational, unlike `|z|` itself. -/
def normSq (x : Cq) : ℚ := x.re * x.re + x.im * x.im

/-- Complex division `x / y` (as in `std::complex`); division by zero yields 0
(the ℚ convention) — every use in the embedding is at nonzero denominators for
the inputs the claims are about. -/
def div (x y : Cq) : Cq :=
  let d := normSq y
  ⟨(x.re * y.re + x.im * y.im) / d, (x.im * y.re - x.re * y.im) / d⟩

def conj (x : Cq) : Cq := ⟨x.re, -x.im⟩

def ofQ (q : ℚ) : Cq := ⟨q, 0⟩

instance : Add Cq := ⟨add⟩
instance : Sub Cq := ⟨sub⟩
instance : Mul Cq := ⟨mul⟩
instance : Neg Cq := ⟨neg⟩
instance : Div Cq := ⟨div⟩
instance : Zero Cq := ⟨⟨0, 0⟩⟩
instance : One Cq := ⟨⟨1, 0⟩⟩
instance : Inhabited Cq := ⟨⟨0, 0⟩⟩

/-- The imaginary unit. -/
def I : Cq := ⟨0, 1⟩

end Cq

/-- Modelled from the spec: the fixed small epsilon of §7 ("Numeric tolerance
comparisons ... must use a fixed small epsilon, consistently applied wherever
'is real' ... decisions are made").  The helper `equal` lives in the missing
header `VectorFitting.h`; only its tolerance character is specified. -/
def eps : ℚ := 1 / 1000000000

/-- Modelled from the spec: `equal(a, b)` from the missing header — true when
`a` and `b` agree within the fixed epsilon.  Used for every "is real" /
"is effectively zero" decision in the source. -/
def requal (a b : ℚ) : Bool := |a - b| < eps

/-- Modelled from the spec: `lower(a, b)` from the missing header — strict
comparison against a threshold (the thresholds themselves, `toleranceLow_` /
`toleranceHigh_`, are the configured tolerances of §3). -/
def rlower (a b : ℚ) : Bool := a < b

/-- Modelled from the spec: `greater(a, b)` from the missing header — strict
comparison against a threshold. -/
def rgreater (a b : ℚ) : Bool := a > b

/-- Modelled from the spec: the member constant `toleranceLow_` of the missing
header ("numeric tolerances for the relax-constraint sanity check"). -/
def toleranceLow : ℚ := 1 / 10 ^ 18

/-- Modelled from the spec: the member constant `toleranceHigh_` of the missing
header. -/
def toleranceHigh : ℚ := 10 ^ 18

/-- `isReal` from the source: a complex number whose imaginary part is zero
within tolerance. -/
def isRealB (z : Cq) : Bool := requal z.im 0

/-- Modelled from the spec: `linspace` from `SpaceGenerator.h` (not in `src/`)
— "a monotonically increasing distribution (linear ...) over `[min, max]`" of
`n` values.  For `n = 1` the single value is the left endpoint. -/
def linspace (range : ℚ × ℚ) (n : ℕ) : List ℚ :=
  (List.range n).map (fun k => range.1 + (range.2 - range.1) * k / ((n : ℚ) - 1))

/-- Checked list read: models an indexed access that the C++ may perform out of
bounds (`std::vector::operator[]` / Eigen coefficient access). -/
def getAtE (l : List α) (i : ℕ) : Except Err α :=
  match l[i]? with
  | some v => .ok v
  | none => .error .indexOutOfBounds

/-- Checked list write. -/
def setAtE (l : List α) (i : ℕ) (v : α) : Except Err (List α) :=
  if i < l.length then .ok (l.set i v) else .error .indexOutOfBounds

/-- A sample `(s, f(s))`: frequency and response vector (width `Nc`). -/
abbrev SampleQ := Cq × List Cq

/-- `Options::AsymptoticTrend`. -/
inductive Trend where
  | zero
  | constant
  | linear
  deriving DecidableEq, Repr

/-- The `Options` configuration struct. -/
structure Config where
  skipPole : Bool      -- skipPoleIdentification
  skipResidue : Bool   -- skipResidueIdentification
  relax : Bool
  stable : Bool
  trend : Trend
  deriving DecidableEq, Repr

/-- The state owned by one `VectorFitting` instance: the fields `options_`,
`samples_`, `weights_`, `poles_` and the fitted-model fields `B_`, `C_`, `D_`,
`E_` (`A_` is the diagonal matrix of `poles_` and carries no extra
information, so it is not duplicated here). -/
structure State where
  cfg : Config
  samples : List SampleQ
  weights : List (List ℚ)     -- Ns × Nc
  poles : List Cq
  B : List ℤ                  -- B_ (VectorXi)
  C : List (List Cq)          -- C_ (Nc × N)
  D : List Cq                 -- D_
  E : List Cq                 -- E_
  deriving DecidableEq, Repr

/-- `getSamplesSize()`. -/
def samplesSize (st : State) : ℕ := st.samples.length

/-- `getResponseSize()`: width of the first sample's response vector. -/
def responseSize (st : State) : ℕ := ((st.samples.headD (⟨0, 0⟩, [])).2).length

/-- `getOrder()`: current number of poles. -/
def order (st : State) : ℕ := st.poles.length

/-! ### Construction: `init` and the two constructors -/

/-- The pole sanity-check loop of `VectorFitting::init` (lines 253-261): scan
left to right; at a non-real pole, `assert(conj(currentPole) == poles[i+1])`
and skip the partner.  A failed assert is the `unpairedPole` error; reading
`poles[i+1]` past the end of the vector is the `indexOutOfBounds` error. -/
def validatePoles : List Cq → Except Err Unit
  | [] => .ok ()
  | [p] => if isRealB p then .ok () else .error .indexOutOfBounds
  | p :: q :: rest2 =>
    if isRealB p then validatePoles (q :: rest2)
    else if q = Cq.conj p then validatePoles rest2
    else .error .unpairedPole

/-- The conjugate-pair invariant of the spec, as a parse: the pole sequence is
a concatenation of real poles (imaginary part zero within tolerance) and of
pairs `z, conj z` of non-real poles. -/
def wellPairedB : List Cq → Bool
  | [] => true
  | [p] => isRealB p
  | p :: q :: rest2 =>
    if isRealB p then wellPairedB (q :: rest2)
    else q = Cq.conj p && wellPairedB rest2

/-- Per-row check and copy of the weights matrix in `init` (lines 274-283). -/
def checkWeightRows (nc : ℕ) : List (List ℚ) → Except Err (List (List ℚ))
  | [] => .ok []
  | row :: rest =>
    if row.length ≠ nc then .error .weightsRowSize
    else do
      let rest2 ← checkWeightRows nc rest
      pure (row :: rest2)

/-- `VectorFitting::init` (lines 245-285): validate the pole pairing, store
samples and poles, then build the weights matrix (all-ones when none is
supplied, else dimension-checked copy). -/
def init (samples : List SampleQ) (poles : List Cq) (cfg : Config)
    (weights : List (List ℚ)) : Except Err State := do
  validatePoles poles
  let ns := samples.length
  let nc := ((samples.headD (⟨0, 0⟩, [])).2).length
  if weights.length ≠ 0 ∧ weights.length ≠ ns then
    throw .weightsSize
  let w ← if weights.length = 0 then
      pure (List.replicate ns (List.replicate nc (1 : ℚ)))
    else
      checkWeightRows nc weights
  pure { cfg := cfg, samples := samples, weights := w, poles := poles,
         B := [], C := [], D := [], E := [] }

/-- The `(samples, poles, options, weights)` constructor (lines 287-295). -/
def constructFromPoles (samples : List SampleQ) (poles : List Cq)
    (cfg : Config) (weights : List (List ℚ)) : Except Err State := do
  if samples.length = 0 then throw .emptySamples
  init samples poles cfg weights

/-- The pole-generation loop of the order constructor (lines 328-333):
`poles[i] = Complex(-imag/100, imag)`, `poles[i+1] = conj(poles[i])` for
`i = 0, 2, ...` with `imag = imagParts[i/2]`, on a vector of size `order`.
Both the `imagParts` read and the two writes are checked. -/
def buildInitPoles (imagParts : List ℚ) (ord : ℕ) : Except Err (List Cq) :=
  go 0 ord (List.replicate ord (0 : Cq))
where
  go (i fuel : ℕ) (acc : List Cq) : Except Err (List Cq) :=
    match fuel with
    | 0 => .ok acc
    | fuel + 1 =>
      if i < ord then do
        let im ← getAtE imagParts (i / 2)
        let p : Cq := ⟨-im / 100, im⟩
        let acc1 ← setAtE acc i p
        let acc2 ← setAtE acc1 (i + 1) (Cq.conj p)
        go (i + 2) fuel acc2
      else .ok acc

/-- The `(samples, order, options, weights)` constructor (lines 297-336).
Note the guard is `if (order % 2 == 0) throw "... order must be even"`:
the source throws precisely when the order IS even. -/
def constructFromOrder (samples : List SampleQ) (ord : ℕ) (cfg : Config)
    (weights : List (List ℚ)) : Except Err State := do
  if samples.length = 0 then throw .emptySamples
  if ord % 2 = 0 then throw .invalidOrder
  let imags := samples.map (fun s => s.1.im)
  let lo := imags.foldl min (imags.headD 0)
  let hi := imags.foldl max (imags.headD 0)
  let imagParts := linspace (lo, hi) (ord / 2)
  let poles ← buildInitPoles imagParts ord
  init samples poles cfg weights

/-! ### `getCIndex`: classification of poles as real / first / second of pair -/

/-- One pass of the loop of `VectorFitting::getCIndex` (lines 896-914),
iterating `m = 0, 1, ...` (`cnt` iterations remain).  All reads and writes of
the `cindex` array, and the reads of the pole vector, are bounds-checked. -/
def cindexLoop (poles : List Cq) : ℕ → ℕ → List ℕ → Except Err (List ℕ)
  | _, 0, tags => .ok tags
  | m, cnt + 1, tags => do
    let p ← getAtE poles m
    if ¬ isRealB p then
      if m = 0 then do
        let t ← setAtE tags 0 1
        cindexLoop poles 1 cnt t
      else do
        let prev ← getAtE tags (m - 1)
        if prev = 0 ∨ prev = 2 then do
          let t1 ← setAtE tags m 1
          let t2 ← setAtE t1 (m + 1) 2
          cindexLoop poles (m + 1) cnt t2
        else do
          let t ← setAtE tags m 2
          cindexLoop poles (m + 1) cnt t
    else
      cindexLoop poles (m + 1) cnt tags

/-- `VectorFitting::getCIndex`: tag each pole `0` (real), `1` (first of a
conjugate pair) or `2` (second of a pair) by a left-to-right scan. -/
def getCIndex (poles : List Cq) : Except Err (List ℕ) :=
  cindexLoop poles 0 poles.length (List.replicate poles.length 0)

/-- The tags the spec describes for a well-paired pole sequence: `0` for each
real pole, `1` then `2` for each conjugate pair, read off the parse. -/
def expectedTags : List Cq → List ℕ
  | [] => []
  | [p] => if isRealB p then [0] else [1]
  | p :: q :: rest2 =>
    if isRealB p then 0 :: expectedTags (q :: rest2)
    else 1 :: 2 :: expectedTags rest2

/-! ### Dense-matrix scaffolding (row-major lists) -/

/-- Real matrix, row-major. -/
abbrev Mat := List (List ℚ)

/-- Complex matrix, row-major. -/
abbrev MatC := List (List Cq)

/-- Coefficient read with default 0, for accesses that are in bounds by
construction (loop indices bounded by the matrix dimensions). -/
def mget (A : Mat) (i j : ℕ) : ℚ := (A.getD i []).getD j 0

def mgetC (A : MatC) (i j : ℕ) : Cq := (A.getD i []).getD j 0

def vget (v : List ℚ) (i : ℕ) : ℚ := v.getD i 0

def vgetC (v : List Cq) (i : ℕ) : Cq := v.getD i 0

/-- Build an `rows × cols` matrix from a coefficient function. -/
def matOf (rows cols : ℕ) (f : ℕ → ℕ → ℚ) : Mat :=
  (List.range rows).map (fun i => (List.range cols).map (f i))

def matOfC (rows cols : ℕ) (f : ℕ → ℕ → Cq) : MatC :=
  (List.range rows).map (fun i => (List.range cols).map (f i))

def sumRange (n : ℕ) (f : ℕ → ℚ) : ℚ :=
  (List.range n).foldl (fun acc k => acc + f k) 0

def sumRangeC (n : ℕ) (f : ℕ → Cq) : Cq :=
  (List.range n).foldl (fun acc k => acc + f k) 0

/-- `Aᵀ · A'`-style product with explicit inner dimension. -/
def matMulT (A B : Mat) (n inner m : ℕ) : Mat :=
  matOf n m (fun i j => sumRange inner (fun t => mget A i t * mget B t j))

/-- `R.block(r0, c0, rows, cols)`. -/
def block (A : Mat) (r0 c0 rows cols : ℕ) : Mat :=
  matOf rows cols (fun i j => mget A (r0 + i) (c0 + j))

/-- Squared Euclidean norm of column `j` of an `rows × ?` real matrix. -/
def colNormSq (A : Mat) (rows j : ℕ) : ℚ :=
  sumRange rows (fun i => mget A i j * mget A i j)

/-- Squared Euclidean norm of column `j` of a complex matrix. -/
def colNormSqC (A : MatC) (rows j : ℕ) : ℚ :=
  sumRange rows (fun i => (mgetC A i j).normSq)

/-- The numerical black boxes of Eigen that have no exact rational embedding.
`fit` is parameterised over them; structural theorems hold for every choice,
and concrete runs supply explicit dummy instances.
* `sqrtQ` stands for `std::sqrt` / Eigen's `.norm()` square root,
* `qrQ` for the thin `Q` factor `householderQ * Identity(rows, cols)` of the
  Householder QR used in the relaxed pole-identification build,
* `solveR` for `householderQr().solve` on the real system `AA x = bb`,
* `eig` for `EigenSolver<MatrixXd>(ZER).eigenvalues()`,
* `solveC` for `householderQr().solve` on the per-channel complex system. -/
structure Oracles where
  sqrtQ : ℚ → ℚ
  qrQ : Mat → Mat
  solveR : Mat → List ℚ → List ℚ
  eig : Mat → List Cq
  solveC : MatC → List Cq → List Cq

/-! ### Stage 1: pole identification (lines 353-620) -/

/-- `offs` for the relaxed build (lines 401-412). -/
def trendOffs : Trend → ℕ
  | .zero => 0
  | .constant => 1
  | .linear => 2

/-- The basis matrix `Dk` of the pole-identification stage (lines 365-386):
`Ns × (N+2)`, real poles give `1/(s-a)`, a pair gives the two combined
columns, column `N` is all ones and column `N+1` is `s` for the linear trend.
Built column-by-column following the loop; all indices are within the
`Ns × (N+2)` bounds (`m+1 ≤ N < N+2`), so the build is pure.  Stored
column-major: `dkPole cols[m][i]` is `Dk(i, m)`. -/
def poleDkCols (st : State) (cindex : List ℕ) : List (List Cq) :=
  let ns := samplesSize st
  let n := order st
  let sAt := fun i => ((st.samples.getD i (⟨0, 0⟩, [])).1)
  let pAt := fun m => st.poles.getD m 0
  let step := fun (cols : List (List Cq)) (m : ℕ) =>
    if cindex.getD m 0 = 0 then
      cols.set m ((List.range ns).map (fun i => (1 : Cq) / (sAt i - pAt m)))
    else if cindex.getD m 0 = 1 then
      let c1 := (List.range ns).map (fun i =>
        (1 : Cq) / (sAt i - pAt m) + (1 : Cq) / (sAt i - Cq.conj (pAt m)))
      let c2 := (List.range ns).map (fun i =>
        Cq.I / (sAt i - pAt m) - Cq.I / (sAt i - Cq.conj (pAt m)))
      (cols.set m c1).set (m + 1) c2
    else cols
  let base := (List.range n).foldl step
    (List.replicate (n + 2) (List.replicate ns (0 : Cq)))
  let withOnes := base.set n ((List.range ns).map (fun _ => (1 : Cq)))
  if st.cfg.trend = .linear then
    withOnes.set (n + 1) ((List.range ns).map (fun i => sAt i))
  else withOnes

/-- `Dk(i, m)` read out of the column-major store. -/
def dkAt (cols : List (List Cq)) (i m : ℕ) : Cq := (cols.getD m []).getD i 0

/-- The scaling factor for the relaxation row (lines 387-396):
`sqrt(Σ |w(i,m) · conj(f_i[m])|²) / Ns`; the summand is the rational
`w² · |f|²`, only the outer square root needs the oracle. -/
def relaxScale (o : Oracles) (st : State) : ℚ :=
  let ns := samplesSize st
  let nc := responseSize st
  let s := sumRange nc (fun m => sumRange ns (fun i =>
    let w := mget st.weights i m
    let f := vgetC ((st.samples.getD i (⟨0, 0⟩, [])).2) m
    w * w * f.normSq))
  o.sqrtQ s / (ns : ℚ)

/-- The relaxed system build and solve (lines 400-481): per response channel,
assemble the `(2Ns+1) × (N+offs+N+1)` matrix `A` (left block from `Dk`
weighted, right block `-w·Dk·f`, and — on the last channel only — the scaled
integral-criterion row), take the thin QR factor `Q`, recompute `R = Qᵀ A`,
stack the `R22` blocks into `AA`, fill `bb` from the last channel's `Q`,
column-normalise `AA` by `Escale = 1/‖col‖`, solve, and rescale `x`. -/
def relaxSolve (o : Oracles) (st : State) (dk : List (List Cq)) (scale : ℚ) :
    List ℚ :=
  let ns := samplesSize st
  let n := order st
  let nc := responseSize st
  let offs := trendOffs st.cfg.trend
  let rowsA := 2 * ns + 1
  let colsA := (n + offs) + n + 1
  let chanA := fun (ch : ℕ) =>
    let w := fun i => mget st.weights i ch
    let f := fun i => vgetC ((st.samples.getD i (⟨0, 0⟩, [])).2) ch
    matOf rowsA colsA (fun i j =>
      if i < ns then
        if j < n + offs then (Cq.ofQ (w i) * dkAt dk i j).re
        else ((Cq.ofQ (- w i)) * dkAt dk i (j - (n + offs)) * f i).re
      else if i < 2 * ns then
        if j < n + offs then (Cq.ofQ (w (i - ns)) * dkAt dk (i - ns) j).im
        else ((Cq.ofQ (- w (i - ns))) * dkAt dk (i - ns) (j - (n + offs)) *
          f (i - ns)).im
      else -- the integral-criterion row, only on the last channel
        if ch = nc - 1 ∧ n + offs ≤ j then
          (Cq.ofQ scale * sumRangeC ns (fun t => dkAt dk t (j - (n + offs)))).re
        else 0)
  let qrOf := fun (ch : ℕ) => o.qrQ (chanA ch)
  let r22 := fun (ch : ℕ) =>
    let a := chanA ch
    let q := qrOf ch
    let r := matMulT (matOf colsA rowsA (fun i j => mget q j i)) a colsA rowsA colsA
    block r (n + offs) (n + offs) (n + 1) (n + 1)
  let aa := matOf (nc * (n + 1)) (n + 1)
    (fun i j => mget (r22 (i / (n + 1))) (i % (n + 1)) j)
  let bb := (List.range (nc * (n + 1))).map (fun i =>
    if i / (n + 1) = nc - 1 then
      mget (qrOf (nc - 1)) (2 * ns) ((n + offs) + i % (n + 1)) * (ns : ℚ) * scale
    else 0)
  let escale := fun j => 1 / o.sqrtQ (colNormSq aa (nc * (n + 1)) j)
  let aaScaled := matOf (nc * (n + 1)) (n + 1) (fun i j => escale j * mget aa i j)
  let x := o.solveR aaScaled bb
  (List.range (n + 1)).map (fun i => vget x i * escale i)

/-- The recombination of the sigma residues for conjugate pairs
(lines 495-502): at a first-of-pair index, `C(m) = (r1, r2)` and
`C(m+1) = (r1, -r2)` with `r1 = Re C(m)`, `r2 = Re C(m+1)`.  The write at
`m+1` is bounds-checked (the C vector has only `N` entries). -/
def recombinePairs (cindex : List ℕ) (c : List Cq) : Except Err (List Cq) :=
  go 0 c.length c
where
  go (m fuel : ℕ) (acc : List Cq) : Except Err (List Cq) :=
    match fuel with
    | 0 => .ok acc
    | fuel + 1 =>
      if cindex.getD m 0 = 1 then do
        let r1 := (vgetC acc m).re
        let r2 := (vgetC acc (m + 1)).re
        let a1 ← setAtE acc m ⟨r1, r2⟩
        let a2 ← setAtE a1 (m + 1) ⟨r1, -r2⟩
        go (m + 1) fuel a2
      else go (m + 1) fuel acc

/-- Checked write of one coefficient of a row-major complex matrix. -/
def msetE (A : MatC) (i j : ℕ) (v : Cq) : Except Err MatC := do
  let row ← getAtE A i
  let row2 ← setAtE row j v
  setAtE A i row2

/-- The 2×2 block expansion of `LAMBD` (lines 506-525): walk `n = 0..N-1`
with a second cursor `m`; when `greater(|LAMBD(m,m)|, |Re LAMBD(m,m)|)` (with
strict `greater` this is `normSq > re²`, i.e. a non-real diagonal entry),
expand the pair into the real 2×2 block, set `B(m) = 2, B(m+1) = 0`, split
`C(m)` into real and imaginary parts, and advance `m` one extra step.  The
writes at row/column `m+1` are bounds-checked, as in Eigen. -/
def expandLoop (nTotal : ℕ) :
    ℕ → ℕ → MatC → List ℤ → List Cq → Except Err (MatC × List ℤ × List Cq)
  | _, 0, lambd, b, c => .ok (lambd, b, c)
  | m, cnt + 1, lambd, b, c =>
    if m < nTotal ∧ (mgetC lambd m m).normSq > (mgetC lambd m m).re ^ 2 then do
      let z := mgetC lambd m m
      let l1 ← msetE lambd (m + 1) m ⟨-z.im, 0⟩
      let l2 ← msetE l1 m (m + 1) ⟨z.im, 0⟩
      let l3 ← msetE l2 m m ⟨z.re, 0⟩
      let l4 ← msetE l3 (m + 1) (m + 1) ⟨z.re, 0⟩
      let b1 ← setAtE b m 2
      let b2 ← setAtE b1 (m + 1) 0
      let aux := vgetC c m
      let c1 ← setAtE c m ⟨aux.re, 0⟩
      let c2 ← setAtE c1 (m + 1) ⟨aux.im, 0⟩
      expandLoop nTotal (m + 2) cnt l4 b2 c2
    else
      expandLoop nTotal (m + 1) cnt lambd b c

/-- The purely-real sanity checks on `LAMBD` and `C` (lines 527-539):
tolerance-checked imaginary parts, aborting with the "LAMBD is not purely
real" error otherwise. -/
def checkReal (n : ℕ) (lambd : MatC) (c : List Cq) : Except Err Unit :=
  if (List.range n).all (fun i => (List.range n).all (fun j =>
        requal (mgetC lambd i j).im 0)) ∧
     (List.range n).all (fun i => requal (vgetC c i).im 0) then
    .ok ()
  else .error .notReal

/-- Stage 1 up to and including the eigenvalue extraction (lines 353-549
before the `stable` post-processing): build the system, solve the relaxed
least-squares problem (or fail with the explicit not-implemented error),
recombine the sigma residues, expand `LAMBD`, check realness, form
`ZER(i,j) = Re(LAMBD(i,j)) - B(i)·Re(C(j))/D` and take its eigenvalues.
The eigensolver contract (exactly `N` eigenvalues) is checked. -/
def poleStageRaw (o : Oracles) (st : State) : Except Err (List Cq) := do
  let n := order st
  let cindex ← getCIndex st.poles
  let dk := poleDkCols st cindex
  let scale := relaxScale o st
  -- `x` is left uninitialised in the source when `relax` is false; the
  -- not-implemented check below short-circuits before reading it.
  let x := if st.cfg.relax then relaxSolve o st dk scale else
    List.replicate (n + 1) 0
  if ¬ st.cfg.relax ∨ rlower |vget x 0| toleranceLow ∨
      rgreater |vget x n| toleranceHigh then
    throw .notImplemented
  let c0 := (List.range n).map (fun i => Cq.ofQ (vget x i))
  let c1 ← recombinePairs cindex c0
  let d := vget x n
  let lambd0 := matOfC n n (fun i j => if i = j then st.poles.getD i 0 else 0)
  let (lambd, b, c2) ← expandLoop n 0 n lambd0 (List.replicate n 1) c1
  checkReal n lambd c2
  let zer := matOf n n (fun i j =>
    (mgetC lambd i j).re - (b.getD i 1 : ℚ) * (vgetC c2 j).re / d)
  let ev := o.eig zer
  if ev.length = n then pure ev else throw .eigSize

/-- The `stable` post-processing (lines 550-557): reflect every eigenvalue
whose real part is `greater` than zero across the imaginary axis. -/
def stableStep (stable : Bool) (l : List Cq) : List Cq :=
  if stable then
    l.map (fun z => if rgreater z.re 0 then ⟨z.re - 2 * z.re, z.im⟩ else z)
  else l

/-- The lexicographic comparison induced by `complexOrdering` (lines 227-238):
`std::sort` with the strict `(re, im)`-lexicographic less produces the unique
arrangement that is sorted under this (antisymmetric, total) `≤`. -/
def auxLe (x y : Cq) : Prop := x.re < y.re ∨ (x.re = y.re ∧ x.im ≤ y.im)

instance : DecidableRel auxLe := fun x y => by unfold auxLe; infer_instance

instance : IsTotal Cq auxLe := by
  constructor
  intro a b
  rcases lt_trichotomy a.re b.re with h | h | h
  · exact Or.inl (Or.inl h)
  · rcases le_total a.im b.im with h2 | h2
    · exact Or.inl (Or.inr ⟨h, h2⟩)
    · exact Or.inr (Or.inr ⟨h.symm, h2⟩)
  · exact Or.inr (Or.inl h)

instance : IsTrans Cq auxLe := by
  constructor
  rintro a b c (h1 | ⟨e1, i1⟩) (h2 | ⟨e2, i2⟩)
  · exact Or.inl (h1.trans h2)
  · exact Or.inl (e2 ▸ h1)
  · exact Or.inl (e1 ▸ h2)
  · exact Or.inr ⟨e1.trans e2, i1.trans i2⟩

/-- The encoded magnitudes sorted in lines 601-606: `aux[m] =
(|Im roetter(m)|, |Re roetter(m)|)`. -/
def auxOf (l : List Cq) : List Cq := l.map (fun z => ⟨|z.im|, |z.re|⟩)

/-- The rebuild of `roetter` from the sorted magnitudes (lines 607-615): a
tolerance-real entry `(a, b)` becomes the pole `(-b, a)`; a non-real entry
becomes `(-b, a)` and the NEXT entry `(a', b')` becomes `(-b', -a')`.  When a
non-real entry is last, the C++ writes `roetter(N)` out of bounds — modelled
as the index error. -/
def reconstructAux : List Cq → Except Err (List Cq)
  | [] => .ok []
  | [a] =>
    if requal a.re 0 then .ok [⟨-a.im, a.re⟩]
    else .error .indexOutOfBounds
  | a :: b :: rest2 =>
    if requal a.re 0 then do
      let t ← reconstructAux (b :: rest2)
      pure (⟨-a.im, a.re⟩ :: t)
    else do
      let t ← reconstructAux rest2
      pure (⟨-a.im, a.re⟩ :: ⟨-b.im, -b.re⟩ :: t)

/-- The canonical reordering of the relocated poles (lines 598-615). -/
def sortStep (l : List Cq) : Except Err (List Cq) :=
  reconstructAux (List.insertionSort auxLe (auxOf l))

/-- Stage 1 in full: raw eigenvalues, stability reflection, canonical sort. -/
def poleStage (o : Oracles) (st : State) : Except Err (List Cq) := do
  let raw ← poleStageRaw o st
  sortStep (stableStep st.cfg.stable raw)

/-! ### Stage 2: residue identification (lines 622-733) -/

/-- The residue-stage basis matrix `Dk` (lines 631-643): `Ns × N`, built from
the pole vector `LAMBD = roetter` and its classification.  The reads
`cindex(m)` and `LAMBD(m)` and the write into column `m+1` are
bounds-checked: `cindex` and `LAMBD` have `roetter.size()` entries while the
loop runs to `N = getOrder()`, and `Dk` has only `N` columns.  (When `Ns = 0`
the inner loop body never runs, so nothing is read — as in the source.)
Stored column-major. -/
def residueDk (st : State) (lambd : List Cq) (cindex : List ℕ) :
    Except Err (List (List Cq)) :=
  go 0 (order st) (List.replicate (order st) (List.replicate (samplesSize st) (0 : Cq)))
where
  go (m fuel : ℕ) (cols : List (List Cq)) : Except Err (List (List Cq)) :=
    match fuel with
    | 0 => .ok cols
    | fuel + 1 =>
      if samplesSize st = 0 then go (m + 1) fuel cols
      else do
        let ns := samplesSize st
        let sAt := fun i => ((st.samples.getD i (⟨0, 0⟩, [])).1)
        let c ← getAtE cindex m
        if c = 0 then do
          let p ← getAtE lambd m
          let col := (List.range ns).map (fun i => (1 : Cq) / (sAt i - p))
          let cols1 ← setAtE cols m col
          go (m + 1) fuel cols1
        else if c = 1 then do
          let p ← getAtE lambd m
          let col1 := (List.range ns).map (fun i =>
            (1 : Cq) / (sAt i - p) + (1 : Cq) / (sAt i - Cq.conj p))
          let col2 := (List.range ns).map (fun i =>
            Cq.I / (sAt i - p) - Cq.I / (sAt i - Cq.conj p))
          let cols1 ← setAtE cols m col1
          let cols2 ← setAtE cols1 (m + 1) col2
          go (m + 1) fuel cols2
        else go (m + 1) fuel cols

/-- Number of columns of the per-channel system (lines 649-659). -/
def residueCols (st : State) : ℕ := order st + trendOffs st.cfg.trend

/-- One channel's conditioned least-squares solve (lines 646-716): assemble
the `2Ns × cols` real-valued (but complex-typed) system and right-hand side,
normalise each column by its norm, solve through the oracle and undo the
normalisation. -/
def residueChannel (o : Oracles) (st : State) (dk : List (List Cq)) (ch : ℕ) :
    List Cq :=
  let ns := samplesSize st
  let n := order st
  let cols := residueCols st
  let w := fun i => mget st.weights i ch
  let f := fun i => vgetC ((st.samples.getD i (⟨0, 0⟩, [])).2) ch
  let sAt := fun i => ((st.samples.getD i (⟨0, 0⟩, [])).1)
  let a := matOfC (2 * ns) cols (fun i j =>
    if i < ns then
      if j < n then Cq.ofQ ((dkAt dk i j).re * w i)
      else if j = n then Cq.ofQ (1 * w i)
      else Cq.ofQ ((sAt i).re * w i)
    else
      if j < n then Cq.ofQ ((dkAt dk (i - ns) j).im * w (i - ns))
      else if j = n then Cq.ofQ (0 * w (i - ns))
      else Cq.ofQ ((sAt (i - ns)).im * w (i - ns)))
  -- BB is assigned inside the loop over the N basis columns; with N = 0 it
  -- keeps its zero initialisation (lines 647, 660-667).
  let bb := (List.range (2 * ns)).map (fun i =>
    if n = 0 then (0 : Cq)
    else if i < ns then Cq.ofQ ((f i).re * w i)
    else Cq.ofQ ((f (i - ns)).im * w (i - ns)))
  let escale := fun j => o.sqrtQ (colNormSqC a (2 * ns) j)
  let aScaled := matOfC (2 * ns) cols (fun i j => mgetC a i j / Cq.ofQ (escale j))
  let x := o.solveC aScaled bb
  (List.range cols).map (fun i => vgetC x i / Cq.ofQ (escale i))

/-- The conjugate-pair reassembly of the residues (lines 719-728): per
first-of-pair column `m`, every row's `(C(n,m), C(n,m+1))` is rebuilt as
`(r1 + i r2, r1 - i r2)` from the two real parts.  Reads of `cindex(m)` and
the writes into column `m+1` are bounds-checked. -/
def recombineResidues (cindex : List ℕ) (n : ℕ) (c : List (List Cq)) :
    Except Err (List (List Cq)) :=
  go 0 n c
where
  go (m fuel : ℕ) (acc : List (List Cq)) : Except Err (List (List Cq)) :=
    match fuel with
    | 0 => .ok acc
    | fuel + 1 => do
      let t ← getAtE cindex m
      if t = 1 then do
        let acc2 ← acc.mapM (fun row => do
          let r1 := (vgetC row m).re
          let r2 := (vgetC row (m + 1)).re
          let row1 ← setAtE row m ⟨r1, r2⟩
          setAtE row1 (m + 1) ⟨r1, -r2⟩)
        go (m + 1) fuel acc2
      else go (m + 1) fuel acc

/-- Stage 2 (lines 622-733): with the (supposedly) relocated poles `roetter`
as `LAMBD`, classify them, build the basis, solve one least-squares problem
per response channel, extract `C`, `D`, `E` and reassemble conjugate
residues.  Returns `(SERC, SERD, SERE)`.  (`SERD`/`SERE` are uninitialised
in the source when the trend leaves them unassigned; the model uses zeros —
no claim depends on those fields for the zero trend.) -/
def residueStage (o : Oracles) (st : State) (roetter : List Cq) :
    Except Err (List (List Cq) × List Cq × List Cq) := do
  let n := order st
  let nc := responseSize st
  let lambd := roetter
  let cindex ← getCIndex lambd
  let dk ← residueDk st lambd cindex
  let xs := (List.range nc).map (fun ch => residueChannel o st dk ch)
  let c0 := xs.map (fun x => (List.range n).map (fun i => vgetC x i))
  let d := match st.cfg.trend with
    | .zero => List.replicate nc (0 : Cq)
    | .constant => xs.map (fun x => vgetC x n)
    | .linear => xs.map (fun x => vgetC x n)
  let e := match st.cfg.trend with
    | .linear => xs.map (fun x => vgetC x (n + 1))
    | _ => List.replicate nc (0 : Cq)
  let c ← recombineResidues cindex n c0
  pure (c, d, e)

/-! ### `fit` (lines 338-782) -/

/-- The final assembly of the fitted model (lines 344-351, 618, 730-750):
`SERA` starts as the stored poles, is replaced by the sorted `roetter` when
pole identification runs, and by `LAMBD` (the same `roetter` variable, empty
when pole identification was skipped) when residue identification runs;
`B_` is the all-ones vector either way; `C_`, `D_`, `E_` are the residue
results or explicit zeros. -/
def assemble (st : State) (roetter : List Cq)
    (res : Option (List (List Cq) × List Cq × List Cq)) : State :=
  let n := order st
  let nc := responseSize st
  let sera := if st.cfg.skipResidue && st.cfg.skipPole then st.poles else roetter
  { st with
    poles := sera,
    B := List.replicate n 1,
    C := match res with
      | some (c, _, _) => c
      | none => List.replicate nc (List.replicate n (0 : Cq)),
    D := match res with
      | some (_, d, _) => d
      | none => List.replicate nc (0 : Cq),
    E := match res with
      | some (_, _, e) => e
      | none => List.replicate nc (0 : Cq) }

/-- `VectorFitting::fit`: the two-stage pipeline.  `roetter` is declared
empty and only assigned by pole identification; the residue stage reads its
poles from it unconditionally (line 626). -/
def fit (o : Oracles) (st : State) : Except Err State :=
  match (if st.cfg.skipPole then Except.ok ([] : List Cq) else poleStage o st) with
  | .error e => .error e
  | .ok roetter =>
    if st.cfg.skipResidue then
      .ok (assemble st roetter none)
    else
      match residueStage o st roetter with
      | .error e => .error e
      | .ok cde => .ok (assemble st roetter (some cde))

/-! ### Accessors (lines 789-918) -/

/-- `getPoles()` (lines 828-834): a copy of the stored pole vector. -/
def getPoles (st : State) : List Cq := st.poles

/-- The model evaluation of `getFittedSamples` (lines 789-826):
`fit(n, i) = Σ_m C(n,m)/(s_i - p_m)` plus the configured asymptotic terms.
(When `Nc = 0` the returned frequencies keep their `Complex(0,0)`
initialisation, as in the source, where `res[i].first` is only assigned
inside the response loop.) -/
def fittedSamplesOf (st : State) : List SampleQ :=
  let n := order st
  let ns := samplesSize st
  let nc := responseSize st
  (List.range ns).map (fun i =>
    let s := (st.samples.getD i (⟨0, 0⟩, [])).1
    (if nc = 0 then (0 : Cq) else s,
     (List.range nc).map (fun ch =>
       let base := sumRangeC n (fun m =>
         mgetC st.C ch m * ((1 : Cq) / (s - st.poles.getD m 0)))
       match st.cfg.trend with
       | .zero => base
       | .constant => base + vgetC st.D ch
       | .linear => base + vgetC st.D ch + s * vgetC st.E ch)))

/-- `getRMSE()` (lines 841-866): RMS of `|actual - fitted|` over all samples
and channels; `abs(diff * diff)` is the rational `normSq`, the final square
root goes through the oracle. -/
def getRMSE (o : Oracles) (st : State) : ℚ :=
  let fitted := fittedSamplesOf st
  let err := sumRange (samplesSize st) (fun i =>
    let resp := (st.samples.getD i (⟨0, 0⟩, [])).2
    sumRange resp.length (fun j =>
      (vgetC resp j - vgetC ((fitted.getD i (⟨0, 0⟩, [])).2) j).normSq))
  o.sqrtQ (err / ((samplesSize st : ℚ) * (responseSize st : ℚ)))

/-- `getMaxDeviation()` (lines 868-881): the largest `|actual - fitted|`
across all samples and channels (`max_element` over per-sample maxima;
modelled with `foldl max 0`, the deviations being non-negative). -/
def getMaxDeviation (o : Oracles) (st : State) : ℚ :=
  let fitted := fittedSamplesOf st
  let devs := (List.range (samplesSize st)).map (fun i =>
    ((List.range (responseSize st)).map (fun j =>
      o.sqrtQ ((vgetC ((st.samples.getD i (⟨0, 0⟩, [])).2) j -
        vgetC ((fitted.getD i (⟨0, 0⟩, [])).2) j).normSq))).foldl max 0)
  devs.foldl max 0

/-- A call of the const method `getFittedSamples()`: the pair of its return
value and the (unchanged) instance state — the method assigns no member. -/
def getFittedSamplesCall (st : State) : List SampleQ × State :=
  (fittedSamplesOf st, st)

/-- A call of the const method `getRMSE()`. -/
def getRMSECall (o : Oracles) (st : State) : ℚ × State :=
  (getRMSE o st, st)

/-- A call of the const method `getMaxDeviation()`. -/
def getMaxDeviationCall (o : Oracles) (st : State) : ℚ × State :=
  (getMaxDeviation o st, st)

/-! ### Claim-side (spec-side) definitions -/

/-- The `B` vector the spec describes (claim C3): `1` for each real pole and
each first member of a conjugate pair, `0` for the second member of each
pair, read off the classification of the stored poles. -/
def specB (poles : List Cq) : List ℤ :=
  match getCIndex poles with
  | .ok tags => tags.map (fun t => if t = 2 then 0 else 1)
  | .error _ => []

/-- Key by which the canonical ordering sorts: `(|imag|, |real|)`. -/
def keyOf (z : Cq) : Cq := ⟨|z.im|, |z.re|⟩

/-- "Ascending by `(|imag|, |real|)`" between two poles. -/
def keyLe (x y : Cq) : Prop := auxLe (keyOf x) (keyOf y)

/-- "All pure-real poles precede all complex poles": whenever the later pole
is real (within tolerance) so is the earlier one. -/
def realPrecedes (x y : Cq) : Prop := isRealB y = true → isRealB x = true

/-- The pair structure of the canonical order: the list parses into real
poles and adjacent conjugate pairs whose positive-imaginary member is
first. -/
def canonicalPairs : List Cq → Bool
  | [] => true
  | [p] => isRealB p
  | p :: q :: rest2 =>
    if isRealB p then canonicalPairs (q :: rest2)
    else 0 < p.im && q = Cq.conj p && canonicalPairs rest2

/-- The sorted magnitude list has its non-real entries in equal adjacent
pairs — the shape the eigenvalues of a real matrix (conjugate pairs of equal
magnitudes) give it.  Hypothesis of the canonical-ordering claim. -/
def pairedAux : List Cq → Bool
  | [] => true
  | [a] => requal a.re 0
  | a :: b :: rest2 =>
    if requal a.re 0 then pairedAux (b :: rest2)
    else a = b && pairedAux rest2

/-! ### Concrete fixtures for the closed theorems -/

/-- Options used by the concrete runs: both stages on, relaxed, no stability
enforcement, zero asymptotic trend. -/
def baseCfg : Config :=
  { skipPole := false, skipResidue := false, relax := true, stable := false,
    trend := .zero }

/-- One sample at `s = i`, one response channel, one conjugate pole pair. -/
def baseState : State :=
  { cfg := baseCfg,
    samples := [(⟨0, 1⟩, [⟨1, 0⟩])],
    weights := [[1]],
    poles := [⟨-1, 2⟩, ⟨-1, -2⟩],
    B := [], C := [], D := [], E := [] }

/-- Explicit dummy oracles: any functions of the right type stand for the
factorizations; the universally-quantified theorems hold for all of them. -/
def oracleA : Oracles :=
  { sqrtQ := fun _ => 1,
    qrQ := fun _ => [],
    solveR := fun _ _ => [1, 1, 1],
    eig := fun _ => [⟨-1, 5⟩, ⟨-1, -5⟩],
    solveC := fun _ _ => [⟨1, 0⟩, ⟨1, 0⟩] }

/-- Like `oracleA` but the eigensolver returns a pair with positive real
part, so the `stable` reflection actually fires. -/
def oracleB : Oracles :=
  { oracleA with eig := fun _ => [⟨1, 5⟩, ⟨1, -5⟩] }

/-- `baseState` with stability enforcement requested. -/
def stableState : State :=
  { baseState with cfg := { baseCfg with stable := true } }

/-- `baseState` with pole identification skipped (residues still on). -/
def skipPoleState : State :=
  { baseState with cfg := { baseCfg with skipPole := true } }

/-- `baseState` with both stages skipped. -/
def skipBothState : State :=
  { baseState with cfg := { baseCfg with skipPole := true, skipResidue := true } }

/-- `baseState` with the relaxed constraint disabled. -/
def noRelaxState : State :=
  { baseState with cfg := { baseCfg with relax := false } }

/-- The state `fit oracleA baseState` produces. -/
def fittedA : State :=
  { cfg := baseCfg,
    samples := [(⟨0, 1⟩, [⟨1, 0⟩])],
    weights := [[1]],
    poles := [⟨-1, 5⟩, ⟨-1, -5⟩],
    B := [1, 1],
    C := [[⟨1, 1⟩, ⟨1, -1⟩]],
    D := [⟨0, 0⟩],
    E := [⟨0, 0⟩] }

/-- The state `fit oracleB stableState` produces. -/
def fittedStable : State :=
  { fittedA with cfg := { baseCfg with stable := true } }

/-- Two samples spanning an imaginary-part range, for the order
constructor. -/
def rangeSamples : List SampleQ := [(⟨0, 1⟩, [⟨1, 0⟩]), (⟨0, 3⟩, [⟨1, 0⟩])]

/-- The state `fit` produces from `skipBothState`: poles untouched, model
fields explicitly zeroed (`B` all ones). -/
def fittedSkipBoth : State :=
  { skipBothState with
    B := [1, 1],
    C := [[⟨0, 0⟩, ⟨0, 0⟩]],
    D := [⟨0, 0⟩],
    E := [⟨0, 0⟩] }

end VFit

namespace VFit

/-! ### Helper lemmas -/

theorem fit_ok_inv {o : Oracles} {st st' : State} (h : fit o st = .ok st') :
    ∃ r, (if st.cfg.skipPole then Except.ok ([] : List Cq)
            else poleStage o st) = .ok r ∧
      ((st.cfg.skipResidue = true ∧ st' = assemble st r none) ∨
       (st.cfg.skipResidue = false ∧
        ∃ cde, residueStage o st r = .ok cde ∧
          st' = assemble st r (some cde))) := by
  unfold fit at h
  cases hp : (if st.cfg.skipPole then Except.ok ([] : List Cq)
      else poleStage o st) with
  | error e => rw [hp] at h; exact absurd h (by simp)
  | ok r =>
    rw [hp] at h
    refine ⟨r, rfl, ?_⟩
    by_cases hsr : st.cfg.skipResidue
    · simp only [hsr, if_true] at h
      exact Or.inl ⟨hsr, (Except.ok.injEq _ _ ▸ h).symm⟩
    · simp only [hsr, if_false, Bool.false_eq_true] at h
      cases hres : residueStage o st r with
      | error e => rw [hres] at h; exact absurd h (by simp)
      | ok cde =>
        rw [hres] at h
        exact Or.inr ⟨by simpa using hsr, cde, rfl,
          (Except.ok.injEq _ _ ▸ h).symm⟩

theorem poleStage_ok_inv {o : Oracles} {st : State} {r : List Cq}
    (h : poleStage o st = .ok r) :
    ∃ raw, poleStageRaw o st = .ok raw ∧
      sortStep (stableStep st.cfg.stable raw) = .ok r := by
  unfold poleStage at h
  cases hr : poleStageRaw o st with
  | error e =>
    rw [hr] at h
    exact absurd h (by simp [Bind.bind, Except.bind])
  | ok raw =>
    rw [hr] at h
    exact ⟨raw, rfl, by simpa [Bind.bind, Except.bind] using h⟩

theorem exceptBind_ok (a : α) (f : α → Except Err β) :
    (Except.ok a >>= f) = f a := rfl

theorem exceptBind_err (e : Err) (f : α → Except Err β) :
    ((Except.error e : Except Err α) >>= f) = .error e := rfl

theorem getAtE_append_cons (a b : List α) (p : α) :
    getAtE (a ++ p :: b) a.length = .ok p := by
  have h : (a ++ p :: b)[a.length]? = some p := by
    rw [List.getElem?_append_right (Nat.le_refl _)]
    simp
  simp [getAtE, h]

theorem getAtE_append_left {a : List α} {i : ℕ} (b : List α)
    (h : i < a.length) : getAtE (a ++ b) i = getAtE a i := by
  simp [getAtE, List.getElem?_append_left h]

theorem getAtE_cons_succ (x : α) (l : List α) (n : ℕ) :
    getAtE (x :: l) (n + 1) = getAtE l n := by
  simp [getAtE]

theorem set_append_len : ∀ (a : List α) (z : List α) (r v : α),
    (a ++ r :: z).set a.length v = a ++ v :: z
  | [], _, _, _ => rfl
  | x :: xs, z, r, v => by
    simp only [List.cons_append, List.length_cons, List.set, List.append_eq]
    rw [set_append_len xs z r v]

theorem setAtE_append_cons (a z : List α) (r v : α) :
    setAtE (a ++ r :: z) a.length v = .ok (a ++ v :: z) := by
  have hlt : a.length < (a ++ r :: z).length := by
    simp [List.length_append]
  simp [setAtE, hlt, set_append_len]

theorem isRealB_conj (p : Cq) : isRealB (Cq.conj p) = isRealB p := by
  simp only [isRealB, Cq.conj, requal]
  apply decide_eq_decide.mpr
  rw [show -p.im - 0 = -(p.im - 0) by ring, abs_neg]

theorem wellPairedB_append : ∀ (pre post : List Cq),
    wellPairedB pre = true → wellPairedB (pre ++ post) = wellPairedB post
  | [], _, _ => rfl
  | [x], post, h => by
    have hx : isRealB x = true := by simpa [wellPairedB] using h
    cases post with
    | nil => simp [wellPairedB, hx]
    | cons z zs => simp [wellPairedB, hx]
  | x :: y :: rest2, post, h => by
    cases hx : isRealB x with
    | true =>
      rw [wellPairedB, hx, if_pos rfl] at h
      show wellPairedB (x :: (y :: (rest2 ++ post))) = wellPairedB post
      rw [wellPairedB, hx, if_pos rfl]
      exact wellPairedB_append (y :: rest2) post h
    | false =>
      rw [wellPairedB, hx] at h
      simp only [Bool.false_eq_true, if_false, Bool.and_eq_true,
        decide_eq_true_eq] at h
      show wellPairedB (x :: (y :: (rest2 ++ post))) = wellPairedB post
      rw [wellPairedB, hx]
      simp only [Bool.false_eq_true, if_false, h.1, decide_True,
        eq_self_iff_true, decide_eq_true_eq, Bool.true_and]
      exact wellPairedB_append rest2 post h.2

theorem expectedTags_append : ∀ (pre post : List Cq),
    wellPairedB pre = true →
    expectedTags (pre ++ post) = expectedTags pre ++ expectedTags post
  | [], _, _ => rfl
  | [x], post, h => by
    have hx : isRealB x = true := by simpa [wellPairedB] using h
    cases post with
    | nil => simp [expectedTags, hx]
    | cons z zs => simp [expectedTags, hx]
  | x :: y :: rest2, post, h => by
    cases hx : isRealB x with
    | true =>
      rw [wellPairedB, hx, if_pos rfl] at h
      have ih := expectedTags_append (y :: rest2) post h
      rw [List.cons_append] at ih
      show expectedTags (x :: (y :: (rest2 ++ post))) = _
      simp only [expectedTags, hx, eq_self_iff_true, if_true]
      rw [ih]
      simp
    | false =>
      rw [wellPairedB, hx] at h
      simp only [Bool.false_eq_true, if_false, Bool.and_eq_true,
        decide_eq_true_eq] at h
      have ih := expectedTags_append rest2 post h.2
      show expectedTags (x :: (y :: (rest2 ++ post))) = _
      simp only [expectedTags, hx, Bool.false_eq_true, if_false]
      rw [ih]
      simp

theorem expectedTags_length : ∀ l : List Cq,
    (expectedTags l).length = l.length
  | [] => rfl
  | [x] => by
    cases hx : isRealB x <;> simp [expectedTags, hx]
  | x :: y :: rest2 => by
    cases hx : isRealB x with
    | true => simp [expectedTags, hx, expectedTags_length (y :: rest2)]
    | false => simp [expectedTags, hx, expectedTags_length rest2]

theorem expectedTags_last : ∀ pre : List Cq, wellPairedB pre = true →
    pre ≠ [] →
    getAtE (expectedTags pre) (pre.length - 1) = .ok 0 ∨
    getAtE (expectedTags pre) (pre.length - 1) = .ok 2
  | [], _, hne => absurd rfl hne
  | [x], h, _ => by
    have hx : isRealB x = true := by simpa [wellPairedB] using h
    left
    simp [expectedTags, hx, getAtE]
  | x :: y :: rest2, h, _ => by
    cases hx : isRealB x with
    | true =>
      rw [wellPairedB, hx, if_pos rfl] at h
      have ih := expectedTags_last (y :: rest2) h (by simp)
      rw [expectedTags, hx, if_pos rfl]
      have hlen : (x :: y :: rest2).length - 1 =
          ((y :: rest2).length - 1) + 1 := by simp
      rw [hlen, getAtE_cons_succ]
      exact ih
    | false =>
      rw [wellPairedB, hx] at h
      simp only [Bool.false_eq_true, if_false, Bool.and_eq_true,
        decide_eq_true_eq] at h
      rw [expectedTags, hx]
      simp only [Bool.false_eq_true, if_false]
      cases rest2 with
      | nil => right; simp [getAtE]
      | cons z rest3 =>
        have ih := expectedTags_last (z :: rest3) h.2 (by simp)
        have hlen : (x :: y :: z :: rest3).length - 1 =
            (((z :: rest3).length - 1) + 1) + 1 := by simp
        rw [hlen, getAtE_cons_succ, getAtE_cons_succ]
        exact ih

/-- The `getCIndex` scan, started after a fully classified well-paired prefix
`pre`, finishes the classification of a well-paired suffix `post`. -/
theorem cindexLoop_ok : ∀ (post pre : List Cq),
    wellPairedB pre = true → wellPairedB post = true →
    cindexLoop (pre ++ post) pre.length post.length
        (expectedTags pre ++ List.replicate post.length 0) =
      .ok (expectedTags (pre ++ post))
  | [], pre, _, _ => by simp [cindexLoop]
  | [p], pre, hpre, hpost => by
    have hp : isRealB p = true := by simpa [wellPairedB] using hpost
    have hget := getAtE_append_cons pre [] p
    show cindexLoop (pre ++ [p]) pre.length (0 + 1) _ = _
    simp only [cindexLoop, hget, exceptBind_ok, hp]
    rw [expectedTags_append pre [p] hpre]
    simp [expectedTags, hp, cindexLoop]
  | p :: q :: rest2, pre, hpre, hpost => by
    cases hx : isRealB p with
    | true =>
      -- a real pole: the scan advances one position.
      rw [wellPairedB, hx, if_pos rfl] at hpost
      have ih := cindexLoop_ok (q :: rest2) (pre ++ [p])
        (by rw [wellPairedB_append pre [p] hpre]; simpa [wellPairedB] using hx)
        hpost
      rw [List.append_assoc] at ih
      simp only [List.cons_append, List.nil_append, List.length_append,
        List.length_cons, List.length_nil, Nat.zero_add] at ih
      rw [expectedTags_append pre [p] hpre] at ih
      simp only [expectedTags, hx, if_pos rfl] at ih
      have hget := getAtE_append_cons pre (q :: rest2) p
      show cindexLoop (pre ++ p :: q :: rest2) pre.length
        ((q :: rest2).length + 1)
        (expectedTags pre ++ List.replicate ((q :: rest2).length + 1) 0) = _
      simp only [cindexLoop, hget, exceptBind_ok, hx]
      simp only [not_true, eq_self_iff_true, if_false]
      have htags : expectedTags pre ++
          List.replicate ((q :: rest2).length + 1) 0 =
          (expectedTags pre ++ [0]) ++ List.replicate (q :: rest2).length 0 := by
        simp [List.replicate]
      rw [htags]
      exact ih
    | false =>
      -- a conjugate pair: two scan steps mark `1` then `2`.
      rw [wellPairedB, hx] at hpost
      simp only [Bool.false_eq_true, if_false, Bool.and_eq_true,
        decide_eq_true_eq] at hpost
      have hq := hpost.1
      have hqx : isRealB q = false := by rw [hq, isRealB_conj, hx]
      have hE : expectedTags [p, q] = [1, 2] := by simp [expectedTags, hx]
      have ih := cindexLoop_ok rest2 (pre ++ [p, q])
        (by rw [wellPairedB_append pre [p, q] hpre]
            simp [wellPairedB, hx, hq])
        hpost.2
      rw [List.append_assoc] at ih
      simp only [List.cons_append, List.nil_append, List.length_append,
        List.length_cons, List.length_nil, Nat.zero_add] at ih
      rw [expectedTags_append pre [p, q] hpre, hE] at ih
      have htags2 : (expectedTags pre ++ [1, 2]) ++
          List.replicate rest2.length 0 =
          expectedTags pre ++ 1 :: 2 :: List.replicate rest2.length 0 := by
        simp
      rw [htags2] at ih
      have hget := getAtE_append_cons pre (q :: rest2) p
      have hget2 : getAtE (pre ++ p :: q :: rest2) (pre.length + 1) =
          .ok q := by
        have h2 := getAtE_append_cons (pre ++ [p]) rest2 q
        simpa [List.append_assoc] using h2
      show cindexLoop (pre ++ p :: q :: rest2) pre.length
        ((q :: rest2).length + 1)
        (expectedTags pre ++ List.replicate ((q :: rest2).length + 1) 0) = _
      rw [show (q :: rest2).length + 1 = rest2.length + 1 + 1 from rfl]
      by_cases hpre0 : pre = []
      · subst hpre0
        simp only [List.nil_append, List.length_nil, expectedTags] at *
        show cindexLoop (p :: q :: rest2) 0 (rest2.length + 1 + 1)
          ([] ++ List.replicate (rest2.length + 1 + 1) 0) = _
        rw [show List.replicate (rest2.length + 1 + 1) (0 : ℕ) =
          0 :: 0 :: List.replicate rest2.length 0 from rfl]
        simp only [List.nil_append]
        simp only [cindexLoop, hget, exceptBind_ok, hx, Bool.false_eq_true,
          not_false_iff, if_true, if_pos rfl]
        rw [show setAtE (0 :: 0 :: List.replicate rest2.length (0 : ℕ)) 0 1 =
          .ok (1 :: 0 :: List.replicate rest2.length 0) by
            simp [setAtE, List.set]]
        rw [exceptBind_ok]
        simp only [cindexLoop, hget2, exceptBind_ok, hqx, Bool.false_eq_true,
          not_false_iff, if_true, Nat.one_ne_zero, if_false]
        rw [show getAtE (1 :: 0 :: List.replicate rest2.length (0 : ℕ))
          (1 - 1) = .ok 1 by simp [getAtE]]
        rw [exceptBind_ok]
        simp only [show ¬((1 : ℕ) = 0 ∨ (1 : ℕ) = 2) by omega, if_false]
        rw [show setAtE (1 :: 0 :: List.replicate rest2.length (0 : ℕ)) 1 2 =
          .ok (1 :: 2 :: List.replicate rest2.length 0) by
            simp [setAtE, List.set]]
        rw [exceptBind_ok]
        simpa [hx] using ih
      · have hlen0 : pre.length ≠ 0 := by
          simpa [List.length_eq_zero] using hpre0
        rw [show List.replicate (rest2.length + 1 + 1) (0 : ℕ) =
          0 :: 0 :: List.replicate rest2.length 0 from rfl]
        simp only [cindexLoop, hget, exceptBind_ok, hx, Bool.false_eq_true,
          not_false_iff, if_true, hlen0, if_false]
        have hprevb : pre.length - 1 < (expectedTags pre).length := by
          rw [expectedTags_length]; omega
        obtain ⟨v, hlast, hv⟩ : ∃ v,
            getAtE (expectedTags pre) (pre.length - 1) = .ok v ∧
              (v = 0 ∨ v = 2) := by
          rcases expectedTags_last pre hpre hpre0 with h | h
          · exact ⟨0, h, Or.inl rfl⟩
          · exact ⟨2, h, Or.inr rfl⟩
        rw [getAtE_append_left _ hprevb, hlast, exceptBind_ok, if_pos hv]
        have hset1 : setAtE
            (expectedTags pre ++ 0 :: 0 :: List.replicate rest2.length (0 : ℕ))
            pre.length 1 =
            .ok (expectedTags pre ++ 1 :: 0 ::
              List.replicate rest2.length 0) := by
          conv in (setAtE _ pre.length 1) => rw [← expectedTags_length pre]
          exact setAtE_append_cons _ _ _ _
        have hset2 : setAtE
            (expectedTags pre ++ 1 :: 0 :: List.replicate rest2.length (0 : ℕ))
            (pre.length + 1) 2 =
            .ok (expectedTags pre ++ 1 :: 2 ::
              List.replicate rest2.length 0) := by
          have ha : expectedTags pre ++ 1 :: 0 ::
              List.replicate rest2.length (0 : ℕ) =
              (expectedTags pre ++ [1]) ++ 0 ::
                List.replicate rest2.length 0 := by simp
          have hb : pre.length + 1 = (expectedTags pre ++ [1]).length := by
            simp [expectedTags_length]
          rw [ha, hb, setAtE_append_cons]
          simp
        rw [hset1, exceptBind_ok, hset2, exceptBind_ok]
        simp only [cindexLoop, hget2, exceptBind_ok, hqx, Bool.false_eq_true,
          not_false_iff, if_true, Nat.succ_ne_zero, if_false]
        have hget1' : getAtE (expectedTags pre ++ 1 :: 2 ::
            List.replicate rest2.length (0 : ℕ)) pre.length = .ok 1 := by
          conv in (getAtE _ pre.length) => rw [← expectedTags_length pre]
          exact getAtE_append_cons _ _ _
        rw [show pre.length + 1 - 1 = pre.length from rfl, hget1',
          exceptBind_ok]
        simp only [show ¬((1 : ℕ) = 0 ∨ (1 : ℕ) = 2) by omega, if_false]
        have hset3 : setAtE (expectedTags pre ++ 1 :: 2 ::
            List.replicate rest2.length (0 : ℕ)) (pre.length + 1) 2 =
            .ok (expectedTags pre ++ 1 :: 2 ::
              List.replicate rest2.length 0) := by
          have ha : expectedTags pre ++ 1 :: 2 ::
              List.replicate rest2.length (0 : ℕ) =
              (expectedTags pre ++ [1]) ++ 2 ::
                List.replicate rest2.length 0 := by simp
          have hb : pre.length + 1 = (expectedTags pre ++ [1]).length := by
            simp [expectedTags_length]
          rw [ha, hb, setAtE_append_cons]
        rw [hset3, exceptBind_ok]
        exact ih

/-- The `init` pole scan accepts exactly the well-paired pole sequences. -/
theorem validatePoles_ok_iff : ∀ p : List Cq,
    validatePoles p = .ok () ↔ wellPairedB p = true
  | [] => by simp [validatePoles, wellPairedB]
  | [x] => by
    cases hx : isRealB x <;> simp [validatePoles, wellPairedB, hx]
  | x :: y :: rest2 => by
    cases hx : isRealB x with
    | true =>
      simp [validatePoles, wellPairedB, hx,
        validatePoles_ok_iff (y :: rest2)]
    | false =>
      by_cases hy : y = Cq.conj x
      · simp [validatePoles, wellPairedB, hx, hy, validatePoles_ok_iff rest2]
      · simp [validatePoles, wellPairedB, hx, hy]

theorem eps_pos : (0 : ℚ) < eps := by norm_num [eps]

/-- Rebuilding the poles from the sorted nonnegative magnitude entries gives
back exactly those entries as `(|imag|, |real|)` keys. -/
theorem reconstructAux_mapKey : ∀ (s t : List Cq),
    (∀ z ∈ s, 0 ≤ z.re ∧ 0 ≤ z.im) → reconstructAux s = .ok t →
    t.map keyOf = s
  | [], t, _, h => by
    simp only [reconstructAux, Except.ok.injEq] at h
    subst h
    rfl
  | [a], t, hnn, h => by
    cases hra : requal a.re 0 with
    | true =>
      rw [reconstructAux, if_pos (by rw [hra])] at h
      simp only [Except.ok.injEq] at h
      subst h
      have h1 : |a.re| = a.re := abs_of_nonneg (hnn a (by simp)).1
      have h2 : |-a.im| = a.im := by
        rw [abs_neg]; exact abs_of_nonneg (hnn a (by simp)).2
      simp [keyOf, h1, h2]
    | false =>
      rw [reconstructAux, if_neg (by rw [hra]; simp)] at h
      exact absurd h (by simp)
  | a :: b :: rest2, t, hnn, h => by
    cases hra : requal a.re 0 with
    | true =>
      rw [reconstructAux, if_pos (by rw [hra])] at h
      cases hr : reconstructAux (b :: rest2) with
      | error e => rw [hr, exceptBind_err] at h; exact absurd h (by simp)
      | ok t2 =>
        rw [hr, exceptBind_ok] at h
        simp only [pure, Except.pure, Except.ok.injEq] at h
        subst h
        have ih := reconstructAux_mapKey (b :: rest2) t2
          (fun z hz => hnn z (by simp [hz])) hr
        have h1 : |a.re| = a.re := abs_of_nonneg (hnn a (by simp)).1
        have h2 : |-a.im| = a.im := by
          rw [abs_neg]; exact abs_of_nonneg (hnn a (by simp)).2
        simp [keyOf, h1, h2, ih]
    | false =>
      rw [reconstructAux, if_neg (by rw [hra]; simp)] at h
      cases hr : reconstructAux rest2 with
      | error e => rw [hr, exceptBind_err] at h; exact absurd h (by simp)
      | ok t2 =>
        rw [hr, exceptBind_ok] at h
        simp only [pure, Except.pure, Except.ok.injEq] at h
        subst h
        have ih := reconstructAux_mapKey rest2 t2
          (fun z hz => hnn z (by simp [hz])) hr
        have h1 : |a.re| = a.re := abs_of_nonneg (hnn a (by simp)).1
        have h2 : |-a.im| = a.im := by
          rw [abs_neg]; exact abs_of_nonneg (hnn a (by simp)).2
        have h3 : |b.re| = b.re := abs_of_nonneg (hnn b (by simp)).1
        have h4 : |-b.im| = b.im := by
          rw [abs_neg]; exact abs_of_nonneg (hnn b (by simp)).2
        simp [keyOf, h1, h2, h3, h4, ih, abs_neg]

/-- Every pole the canonical rebuild produces has nonpositive real part:
its real part is the negation of a `|real|` magnitude. -/
theorem reconstructAux_nonpos : ∀ (s t : List Cq),
    (∀ z ∈ s, 0 ≤ z.im) → reconstructAux s = .ok t → ∀ z ∈ t, z.re ≤ 0
  | [], t, _, h => by
    simp only [reconstructAux, Except.ok.injEq] at h
    subst h
    simp
  | [a], t, hnn, h => by
    cases hra : requal a.re 0 with
    | true =>
      rw [reconstructAux, if_pos (by rw [hra])] at h
      simp only [Except.ok.injEq] at h
      subst h
      intro z hz
      simp only [List.mem_singleton] at hz
      subst hz
      simpa using hnn a (by simp)
    | false =>
      rw [reconstructAux, if_neg (by rw [hra]; simp)] at h
      exact absurd h (by simp)
  | a :: b :: rest2, t, hnn, h => by
    cases hra : requal a.re 0 with
    | true =>
      rw [reconstructAux, if_pos (by rw [hra])] at h
      cases hr : reconstructAux (b :: rest2) with
      | error e => rw [hr, exceptBind_err] at h; exact absurd h (by simp)
      | ok t2 =>
        rw [hr, exceptBind_ok] at h
        simp only [pure, Except.pure, Except.ok.injEq] at h
        subst h
        have ih := reconstructAux_nonpos (b :: rest2) t2
          (fun z hz => hnn z (by simp [hz])) hr
        intro z hz
        rcases List.mem_cons.mp hz with hz | hz
        · subst hz; simpa using hnn a (by simp)
        · exact ih z hz
    | false =>
      rw [reconstructAux, if_neg (by rw [hra]; simp)] at h
      cases hr : reconstructAux rest2 with
      | error e => rw [hr, exceptBind_err] at h; exact absurd h (by simp)
      | ok t2 =>
        rw [hr, exceptBind_ok] at h
        simp only [pure, Except.pure, Except.ok.injEq] at h
        subst h
        have ih := reconstructAux_nonpos rest2 t2
          (fun z hz => hnn z (by simp [hz])) hr
        intro z hz
        rcases List.mem_cons.mp hz with hz | hz
        · subst hz; simpa using hnn a (by simp)
        · rcases List.mem_cons.mp hz with hz | hz
          · subst hz; simpa using hnn b (by simp)
          · exact ih z hz

theorem canonicalPairs_cons_real {p : Cq} {t : List Cq}
    (hp : isRealB p = true) (ht : canonicalPairs t = true) :
    canonicalPairs (p :: t) = true := by
  cases t with
  | nil => simpa [canonicalPairs] using hp
  | cons w t2 => simpa [canonicalPairs, hp] using ht

/-- When the sorted magnitude list has its non-real entries in equal adjacent
pairs, the rebuilt pole list parses into real poles and adjacent conjugate
pairs with the positive-imaginary member first. -/
theorem reconstructAux_pairs : ∀ (s t : List Cq),
    (∀ z ∈ s, 0 ≤ z.re) → pairedAux s = true → reconstructAux s = .ok t →
    canonicalPairs t = true
  | [], t, _, _, h => by
    simp only [reconstructAux, Except.ok.injEq] at h
    subst h
    rfl
  | [a], t, _, hpa, h => by
    cases hra : requal a.re 0 with
    | true =>
      rw [reconstructAux, if_pos (by rw [hra])] at h
      simp only [Except.ok.injEq] at h
      subst h
      simpa [canonicalPairs, isRealB, requal, sub_zero] using hra
    | false =>
      rw [reconstructAux, if_neg (by rw [hra]; simp)] at h
      exact absurd h (by simp)
  | a :: b :: rest2, t, hnn, hpa, h => by
    cases hra : requal a.re 0 with
    | true =>
      rw [pairedAux, if_pos (by rw [hra])] at hpa
      rw [reconstructAux, if_pos (by rw [hra])] at h
      cases hr : reconstructAux (b :: rest2) with
      | error e => rw [hr, exceptBind_err] at h; exact absurd h (by simp)
      | ok t2 =>
        rw [hr, exceptBind_ok] at h
        simp only [pure, Except.pure, Except.ok.injEq] at h
        subst h
        have ih := reconstructAux_pairs (b :: rest2) t2
          (fun z hz => hnn z (by simp [hz])) hpa hr
        exact canonicalPairs_cons_real
          (by simpa [isRealB, requal, sub_zero] using hra) ih
    | false =>
      rw [pairedAux, if_neg (by rw [hra]; simp)] at hpa
      simp only [Bool.and_eq_true, decide_eq_true_eq] at hpa
      rw [reconstructAux, if_neg (by rw [hra]; simp)] at h
      cases hr : reconstructAux rest2 with
      | error e => rw [hr, exceptBind_err] at h; exact absurd h (by simp)
      | ok t2 =>
        rw [hr, exceptBind_ok] at h
        simp only [pure, Except.pure, Except.ok.injEq] at h
        subst h
        have ih := reconstructAux_pairs rest2 t2
          (fun z hz => hnn z (by simp [hz])) hpa.2 hr
        have hann : 0 ≤ a.re := hnn a (by simp)
        have hapos : 0 < a.re := by
          have : ¬ (|a.re - 0| < eps) := by
            simpa [requal] using hra
          rw [sub_zero, abs_of_nonneg hann] at this
          have := le_of_not_lt this
          linarith [eps_pos]
        have hreal : isRealB (⟨-a.im, a.re⟩ : Cq) = false := by
          simp only [isRealB, requal, sub_zero]
          rw [abs_of_nonneg hann]
          simp only [decide_eq_false_iff_not, not_lt]
          have : ¬ (|a.re - 0| < eps) := by
            simpa [requal] using hra
          rw [sub_zero, abs_of_nonneg hann] at this
          exact le_of_not_lt this
      -- the pair structure: positive-imaginary first, conjugate second
        rw [canonicalPairs, hreal]
        simp only [Bool.false_eq_true, if_false, Bool.and_eq_true,
          decide_eq_true_eq]
        refine ⟨⟨by simpa using hapos, ?_⟩, ih⟩
        rw [hpa.1]
        simp [Cq.conj]

/-- Every entry of the sorted magnitude list is componentwise nonnegative. -/
theorem sorted_aux_nonneg (l : List Cq) :
    ∀ z ∈ List.insertionSort auxLe (auxOf l), 0 ≤ z.re ∧ 0 ≤ z.im := by
  intro z hz
  rw [List.mem_insertionSort] at hz
  simp only [auxOf, List.mem_map] at hz
  obtain ⟨w, _, hw⟩ := hz
  subst hw
  exact ⟨abs_nonneg _, abs_nonneg _⟩

/-- The code's realness test, read through the sort key: a pole is
tolerance-real exactly when the first component of its `(|imag|, |real|)`
key is below the epsilon. -/
theorem isRealB_eq_key (z : Cq) :
    isRealB z = decide ((keyOf z).re < eps) := by
  simp [isRealB, requal, keyOf, sub_zero]

/-- Everything the canonical sort of lines 598-615 guarantees about its
output: ascending `(|imag|, |real|)` keys, real poles before complex ones,
nonpositive real parts, and — when the sorted magnitudes carry their non-real
entries in equal adjacent pairs — the conjugate-pair parse with the
positive-imaginary member first. -/
theorem sortStep_ok_props {l t : List Cq} (h : sortStep l = .ok t) :
    List.Pairwise keyLe t ∧ List.Pairwise realPrecedes t ∧
    (∀ z ∈ t, z.re ≤ 0) ∧
    (pairedAux (List.insertionSort auxLe (auxOf l)) = true →
      canonicalPairs t = true) := by
  have hnn := sorted_aux_nonneg l
  have hrec : reconstructAux (List.insertionSort auxLe (auxOf l)) = .ok t := h
  have hmap := reconstructAux_mapKey _ t hnn hrec
  have hsorted : List.Pairwise auxLe
      (List.insertionSort auxLe (auxOf l)) :=
    List.sorted_insertionSort auxLe (auxOf l)
  have hkey : List.Pairwise keyLe t := by
    rw [← hmap] at hsorted
    exact (List.pairwise_map.mp hsorted).imp (fun hab => hab)
  refine ⟨hkey, ?_, ?_, ?_⟩
  · refine hkey.imp ?_
    intro x y hxy
    intro hy
    rw [isRealB_eq_key] at hy ⊢
    simp only [decide_eq_true_eq] at hy ⊢
    have hle : (keyOf x).re ≤ (keyOf y).re := by
      rcases hxy with hlt | ⟨heq, _⟩
      · exact le_of_lt hlt
      · exact le_of_eq heq
    exact lt_of_le_of_lt hle hy
  · exact reconstructAux_nonpos _ t (fun z hz => (hnn z hz).2) hrec
  · intro hpa
    exact reconstructAux_pairs _ t (fun z hz => (hnn z hz).1) hpa hrec

theorem exceptThrow (e : Err) : (throw e : Except Err α) = .error e := rfl

/-- When pole identification runs, the stored poles after `fit` are exactly
the output of the pole stage (both stages store `roetter`). -/
theorem fit_poles_of_not_skipPole {o : Oracles} {st st' : State}
    (h : fit o st = .ok st') (hsp : st.cfg.skipPole = false) :
    ∃ r, poleStage o st = .ok r ∧ st'.poles = r := by
  obtain ⟨r, hr, hcase⟩ := fit_ok_inv h
  rw [hsp] at hr
  simp only [Bool.false_eq_true, if_false] at hr
  refine ⟨r, hr, ?_⟩
  rcases hcase with ⟨hsr, rfl⟩ | ⟨hsr, cde, _, rfl⟩ <;>
    simp [assemble, hsp]

/-! ### The claims -/

/-- C1: the spec says construction from `(samples, order, options, weights?)`
with default conjugate-pair seeding fails for odd orders and succeeds for
every even order.  The code's guard is inverted (`if (order % 2 == 0) throw
"... order must be even"`, line 304): it throws its invalid-order error
precisely for even orders (shown at orders 4 and 2), and for an odd order it
reads past the end of the `order/2`-element `linspace` vector (shown at
order 3). -/
theorem claim1_order_guard_inverted :
    constructFromOrder rangeSamples 4 baseCfg [] = .error .invalidOrder ∧
    constructFromOrder rangeSamples 2 baseCfg [] = .error .invalidOrder ∧
    constructFromOrder rangeSamples 3 baseCfg [] = .error .indexOutOfBounds :=
  ⟨by with_unfolding_all rfl, by with_unfolding_all rfl,
    by with_unfolding_all rfl⟩

/-- C2: the spec says that with `skipPoleIdentification = true` the residue
stage uses the original input poles and `fit` leaves them stored.  In the
code the residue stage takes its poles from `roetter` (line 626), which is
never assigned when pole identification is skipped: it is the empty vector,
and the residue loops over `N = getOrder()` entries read `cindex`/`LAMBD`
out of bounds.  Shown on a reachable instance (built by the pole
constructor): `fit` fails with the index error for every oracle instead of
fitting with the original poles. -/
theorem claim2_skipped_pole_residue_crash :
    constructFromPoles [(⟨0, 1⟩, [⟨1, 0⟩])] [⟨-1, 2⟩, ⟨-1, -2⟩]
        { baseCfg with skipPole := true } [] = .ok skipPoleState ∧
    ∀ o : Oracles, fit o skipPoleState = .error .indexOutOfBounds :=
  ⟨by with_unfolding_all rfl, fun o => by with_unfolding_all rfl⟩

/-- C3 (counterexample): the claim says the fitted `B` vector holds a `0` for
the second member of each conjugate pair.  On a successful fit whose poles
are one conjugate pair (classification `[1, 2]`), the spec-side `B` would be
`[1, 0]` but the code stores all ones (`SERB = VectorXi::Ones(N)`,
line 731). -/
theorem claim3_counterexample :
    fit oracleA baseState = .ok fittedA ∧
    getCIndex fittedA.poles = .ok [1, 2] ∧
    specB fittedA.poles = [1, 0] ∧
    fittedA.B = [1, 1] ∧
    fittedA.B ≠ specB fittedA.poles :=
  ⟨by with_unfolding_all rfl, by with_unfolding_all rfl,
    by with_unfolding_all rfl, rfl, by with_unfolding_all decide⟩

/-- C3 (amended): after every successful `fit()` that performs residue
identification, the fitted model's `B` vector is the all-ones vector of
length `N` — no entry is zeroed for pair seconds. -/
theorem claim3_b_all_ones (o : Oracles) (st st' : State)
    (h : fit o st = .ok st') (hsr : st.cfg.skipResidue = false) :
    st'.B = List.replicate st.poles.length 1 := by
  obtain ⟨r, _, hcase⟩ := fit_ok_inv h
  rcases hcase with ⟨hsr2, rfl⟩ | ⟨_, cde, _, rfl⟩
  · rw [hsr] at hsr2; exact absurd hsr2 (by simp)
  · simp [assemble, order]

theorem claim3_b_all_ones_witness :
    fit oracleA baseState = .ok fittedA ∧
    fittedA.B = List.replicate baseState.poles.length 1 :=
  have h : fit oracleA baseState = .ok fittedA := by with_unfolding_all rfl
  ⟨h, claim3_b_all_ones oracleA baseState fittedA h rfl⟩

/-- C4: a pole sequence violating the conjugate-pair invariant (it does not
parse into tolerance-real poles and adjacent exact-conjugate pairs) makes
construction abort with an error: the `init` scan either fails its
conjugate assert or reads past the end of the pole vector. -/
theorem claim4_unpaired_pole_rejected (samples : List SampleQ)
    (poles : List Cq) (cfg : Config) (weights : List (List ℚ))
    (h : wellPairedB poles = false) :
    ∃ e, constructFromPoles samples poles cfg weights = .error e := by
  unfold constructFromPoles
  by_cases hs : samples.length = 0
  · exact ⟨.emptySamples, by simp [hs, exceptThrow, exceptBind_err]⟩
  · cases hv : validatePoles poles with
    | ok u =>
      cases u
      rw [validatePoles_ok_iff] at hv
      rw [hv] at h
      exact absurd h (by simp)
    | error e =>
      refine ⟨e, ?_⟩
      simp only [hs, if_false]
      unfold init
      rw [hv]
      simp [exceptBind_err]

theorem claim4_witness :
    wellPairedB [(⟨1, 1⟩ : Cq), ⟨5, 5⟩] = false ∧
    ∃ e, constructFromPoles [(⟨0, 1⟩, [⟨1, 0⟩])] [⟨1, 1⟩, ⟨5, 5⟩]
      baseCfg [] = .error e :=
  have hw : wellPairedB [(⟨1, 1⟩ : Cq), ⟨5, 5⟩] = false := by
    with_unfolding_all rfl
  ⟨hw, claim4_unpaired_pole_rejected _ _ _ _ hw⟩

/-- C5: with `stable = true` and pole identification performed, the stable
step replaces exactly the eigenvalues with positive real part by
`pole - 2·Re(pole)`, and every pole stored after a successful `fit` has
real part ≤ 0 (the canonical reordering stores `-|Re|` as every real
part). -/
theorem claim5_stability (o : Oracles) (st st' : State)
    (h : fit o st = .ok st') (hsp : st.cfg.skipPole = false)
    (hst : st.cfg.stable = true) :
    (∀ raw, poleStageRaw o st = .ok raw →
      stableStep st.cfg.stable raw =
        raw.map (fun z => if 0 < z.re then ⟨z.re - 2 * z.re, z.im⟩ else z)) ∧
    ∀ z ∈ st'.poles, z.re ≤ 0 := by
  constructor
  · intro raw _
    rw [hst]
    simp only [stableStep, if_true, rgreater, gt_iff_lt, decide_eq_true_eq]
  · obtain ⟨r, hr, hpoles⟩ := fit_poles_of_not_skipPole h hsp
    obtain ⟨raw, _, hsort⟩ := poleStage_ok_inv hr
    rw [hpoles]
    exact (sortStep_ok_props hsort).2.2.1

theorem claim5_witness :
    fit oracleB stableState = .ok fittedStable ∧
    ∀ z ∈ fittedStable.poles, z.re ≤ 0 :=
  have h : fit oracleB stableState = .ok fittedStable := by
    with_unfolding_all rfl
  ⟨h, (claim5_stability oracleB stableState fittedStable h rfl rfl).2⟩

/-- C6: after every successful `fit` that performs pole identification, and
provided the eigensolver output has its non-real magnitudes in conjugate
pairs (equal adjacent entries once sorted — the shape eigenvalues of a real
matrix have), the stored poles are canonically ordered: ascending by
`(|imag|, |real|)`, real poles before complex ones, and each conjugate pair
adjacent with the positive-imaginary member first. -/
theorem claim6_canonical_order (o : Oracles) (st st' : State) (raw : List Cq)
    (h : fit o st = .ok st') (hsp : st.cfg.skipPole = false)
    (hraw : poleStageRaw o st = .ok raw)
    (hpa : pairedAux (List.insertionSort auxLe
      (auxOf (stableStep st.cfg.stable raw))) = true) :
    List.Pairwise keyLe st'.poles ∧ List.Pairwise realPrecedes st'.poles ∧
    canonicalPairs st'.poles = true := by
  obtain ⟨r, hr, hpoles⟩ := fit_poles_of_not_skipPole h hsp
  obtain ⟨raw2, hraw2, hsort⟩ := poleStage_ok_inv hr
  rw [hraw] at hraw2
  injection hraw2 with hraw2
  subst hraw2
  have props := sortStep_ok_props hsort
  rw [hpoles]
  exact ⟨props.1, props.2.1, props.2.2.2 hpa⟩

theorem claim6_witness :
    fit oracleA baseState = .ok fittedA ∧
    poleStageRaw oracleA baseState = .ok [⟨-1, 5⟩, ⟨-1, -5⟩] ∧
    canonicalPairs fittedA.poles = true :=
  have h : fit oracleA baseState = .ok fittedA := by with_unfolding_all rfl
  have hraw : poleStageRaw oracleA baseState = .ok [⟨-1, 5⟩, ⟨-1, -5⟩] := by
    with_unfolding_all rfl
  have hpa : pairedAux (List.insertionSort auxLe
      (auxOf (stableStep baseState.cfg.stable [⟨-1, 5⟩, ⟨-1, -5⟩]))) =
      true := by with_unfolding_all rfl
  ⟨h, hraw, (claim6_canonical_order oracleA baseState fittedA _ h rfl hraw
    hpa).2.2⟩

/-- C7: with `relax = false` and pole identification not skipped, `fit`
fails with the explicit not-implemented error before computing any pole
estimate, for every oracle and every state whose pole classification scan
succeeds. -/
theorem claim7_nonrelax_not_implemented (o : Oracles) (st : State)
    (tags : List ℕ) (hsp : st.cfg.skipPole = false)
    (hrel : st.cfg.relax = false) (hc : getCIndex st.poles = .ok tags) :
    fit o st = .error .notImplemented := by
  have hps : poleStageRaw o st = .error .notImplemented := by
    unfold poleStageRaw
    rw [hc, exceptBind_ok, hrel]
    simp [exceptThrow, exceptBind_err]
  have hstage : poleStage o st = .error .notImplemented := by
    unfold poleStage
    rw [hps]
    rfl
  unfold fit
  rw [hsp]
  simp [hstage]

theorem claim7_witness :
    getCIndex noRelaxState.poles = .ok [1, 2] ∧
    fit oracleA noRelaxState = .error .notImplemented :=
  have hc : getCIndex noRelaxState.poles = .ok [1, 2] := by
    with_unfolding_all rfl
  ⟨hc, claim7_nonrelax_not_implemented oracleA noRelaxState [1, 2] rfl rfl hc⟩

/-- C8: for every pole sequence satisfying the conjugate-pair invariant, the
left-to-right classification scan terminates without any out-of-bounds read
or write (all its accesses are checked in the model, and it returns a value
rather than the index error) and assigns tag 0 to every real pole, 1 to the
first member of each pair and 2 to the second. -/
theorem claim8_cindex_classification (poles : List Cq)
    (h : wellPairedB poles = true) :
    getCIndex poles = .ok (expectedTags poles) := by
  have hmain := cindexLoop_ok poles [] rfl h
  simpa [getCIndex, expectedTags] using hmain

theorem claim8_witness :
    wellPairedB [(⟨-1, 0⟩ : Cq), ⟨-1, 2⟩, ⟨-1, -2⟩] = true ∧
    getCIndex [(⟨-1, 0⟩ : Cq), ⟨-1, 2⟩, ⟨-1, -2⟩] =
      .ok (expectedTags [(⟨-1, 0⟩ : Cq), ⟨-1, 2⟩, ⟨-1, -2⟩]) ∧
    expectedTags [(⟨-1, 0⟩ : Cq), ⟨-1, 2⟩, ⟨-1, -2⟩] = [0, 1, 2] :=
  have hw : wellPairedB [(⟨-1, 0⟩ : Cq), ⟨-1, 2⟩, ⟨-1, -2⟩] = true := by
    with_unfolding_all rfl
  ⟨hw, claim8_cindex_classification _ hw, by with_unfolding_all rfl⟩

/-- C9: the evaluation accessors are pure: a call of `getFittedSamples()`,
`getRMSE()` or `getMaxDeviation()` returns the instance state unchanged
(the embedded const methods assign no member), and two consecutive
`getFittedSamples()` calls with no intervening `fit()` return identical
results. -/
theorem claim9_accessors_pure (o : Oracles) (st : State) :
    (getFittedSamplesCall st).2 = st ∧
    (getFittedSamplesCall ((getFittedSamplesCall st).2)).1 =
      (getFittedSamplesCall st).1 ∧
    (getRMSECall o st).2 = st ∧
    (getMaxDeviationCall o st).2 = st :=
  ⟨rfl, rfl, rfl, rfl⟩

/-- C10: every successful `fit()` with `skipResidueIdentification = true`
overwrites the model fields: `C` becomes the all-zero `Nc × N` matrix, `D`
and `E` the all-zero vectors, and `B` the all-ones vector — regardless of
what a previous fit had stored in them. -/
theorem claim10_skip_residue_zeroes (o : Oracles) (st st' : State)
    (h : fit o st = .ok st') (hsr : st.cfg.skipResidue = true) :
    st'.B = List.replicate st.poles.length 1 ∧
    st'.C = List.replicate (responseSize st)
      (List.replicate st.poles.length 0) ∧
    st'.D = List.replicate (responseSize st) 0 ∧
    st'.E = List.replicate (responseSize st) 0 := by
  obtain ⟨r, _, hcase⟩ := fit_ok_inv h
  rcases hcase with ⟨_, rfl⟩ | ⟨hsr2, _, _, _⟩
  · exact ⟨by simp [assemble, order], by simp [assemble, order],
      by simp [assemble], by simp [assemble]⟩
  · rw [hsr] at hsr2
    exact absurd hsr2 (by simp)

theorem claim10_witness :
    fit oracleA skipBothState = .ok fittedSkipBoth ∧
    fittedSkipBoth.B = List.replicate skipBothState.poles.length 1 ∧
    fittedSkipBoth.C = List.replicate (responseSize skipBothState)
      (List.replicate skipBothState.poles.length 0) :=
  have h : fit oracleA skipBothState = .ok fittedSkipBoth := by
    with_unfolding_all rfl
  have hall := claim10_skip_residue_zeroes oracleA skipBothState
    fittedSkipBoth h rfl
  ⟨h, hall.1, hall.2.1⟩

end VFit
